import Mathlib

/-!
Shallow embedding of the `bin-diff` demo program (test-program sources:
`math_utils.cpp`, `string_utils.cpp`, `logger.cpp`, `main.cpp`).

Modelling conventions:
* `std::string` is a list of characters (`Str`); byte-level classification
  functions (`toupper`, `tolower`, `isspace`, digits) are modelled on the
  character's code point, matching the C locale on the ASCII range.
* C++ `int` values are `Int` together with the range invariant
  `INT_MIN ≤ x ≤ INT_MAX` carried as explicit hypotheses where it matters;
  `long long` accumulation is modelled with an explicit twos-complement
  wrap `wrap64` at every addition, exactly as the machine would.
* `double` arithmetic: the only floating-point operation in the program is
  the single division `static_cast<double>(sum) / values.size()`. The
  quotient is modelled as the exact rational value; where a claim depends
  on the rounding step, the rounding is abstracted as an arbitrary
  monotone map that fixes integers (IEEE-754 round-to-nearest restricted
  to the values occurring here is such a map).
* Console output is modelled as the list of emitted lines; the numeric
  text rendering used by `std::cout` for the final report is abstracted
  with `toString` (no claim depends on that formatting).
-/

namespace BinDiff

/-- Bytes of a C++ `std::string`, modelled as a list of characters. -/
abbrev Str := List Char

/-! ### string_utils.cpp -/

/-- Model of `std::toupper` (C locale, `unsigned char` argument): maps
`'a'..'z'` (97..122) to `'A'..'Z'`, leaves every other byte unchanged. -/
def toupperChar (c : Char) : Char :=
  if 97 ≤ c.toNat ∧ c.toNat ≤ 122 then Char.ofNat (c.toNat - 32) else c

/-- Model of `std::tolower` (C locale): maps `'A'..'Z'` (65..90) to
`'a'..'z'`, leaves every other byte unchanged. -/
def tolowerChar (c : Char) : Char :=
  if 65 ≤ c.toNat ∧ c.toNat ≤ 90 then Char.ofNat (c.toNat + 32) else c

/-- Function `to_upper` from `string_utils.cpp`: `std::transform` with `toupper`
applied to every byte independently. -/
def to_upper (input : Str) : Str := input.map toupperChar

/-- Function `to_lower` from `string_utils.cpp`. -/
def to_lower (input : Str) : Str := input.map tolowerChar

/-- The whitespace set `" \t\n\r"` passed to `find_first_not_of` /
`find_last_not_of` inside `trim`. -/
def trimSet : Str := [' ', '\t', '\n', '\r']

/-- Membership in the `trim` whitespace set. -/
def isTrimWS (c : Char) : Bool := trimSet.contains c

/-- Model of `input.find_first_not_of(" \t\n\r")`: the index of the first
character not in the set, `none` standing for `std::string::npos`. -/
def find_first_not_of : Str → Option Nat
  | [] => none
  | c :: rest =>
      if isTrimWS c then (find_first_not_of rest).map (· + 1) else some 0

/-- Model of `input.find_last_not_of(" \t\n\r")`: the index of the last
character not in the set. -/
def find_last_not_of (input : Str) : Option Nat :=
  (find_first_not_of input.reverse).map (fun k => input.length - 1 - k)

/-- Model of `input.substr(pos, len)`. -/
def substr (input : Str) (pos len : Nat) : Str := (input.drop pos).take len

/-- Function `trim` from `string_utils.cpp`: if `find_first_not_of` reports no
position, return the empty string; otherwise return
`substr(start, end - start + 1)` with `end` from `find_last_not_of`.
The inner `none` branch is unreachable (a first hit implies a last hit). -/
def trim (input : Str) : Str :=
  match find_first_not_of input with
  | none => []
  | some start =>
      match find_last_not_of input with
      | none => []
      | some e => substr input start (e - start + 1)

/-- Function `starts_with` from `string_utils.cpp`: length guard, then
`str.compare(0, prefix.size(), prefix) == 0`, i.e. equality of the
corresponding substring with the candidate. -/
def starts_with (str pre : Str) : Bool :=
  if pre.length > str.length then false
  else substr str 0 pre.length == pre

/-- Function `ends_with` from `string_utils.cpp`: length guard, then
`str.compare(str.size() - suffix.size(), suffix.size(), suffix) == 0`. -/
def ends_with (str suf : Str) : Bool :=
  if suf.length > str.length then false
  else substr str (str.length - suf.length) suf.length == suf

/-! ### math_utils.cpp -/

/-- Largest value of a 32-bit C++ `int` (`std::numeric_limits<int>::max()`). -/
def INT_MAX : Int := 2 ^ 31 - 1

/-- Smallest value of a 32-bit C++ `int` (`std::numeric_limits<int>::min()`). -/
def INT_MIN : Int := -(2 ^ 31)

/-- Two's-complement wrap of a 32-bit signed integer. -/
def wrap32 (z : Int) : Int := (z + 2 ^ 31) % 2 ^ 32 - 2 ^ 31

/-- Two's-complement wrap of a 64-bit signed integer (`long long`). -/
def wrap64 (z : Int) : Int := (z + 2 ^ 63) % 2 ^ 64 - 2 ^ 63

/-- Function `add` from `math_utils.cpp`: `a + b` on `int`, wrapping. -/
def add (a b : Int) : Int := wrap32 (a + b)

/-- Function `multiply` from `math_utils.cpp`: `a * b` on `int`, wrapping. -/
def multiply (a b : Int) : Int := wrap32 (a * b)

/-- The `Stats` aggregate from `math_utils.h`: three `double` fields,
modelled as exact rationals. -/
structure Stats where
  mean : ℚ
  min : ℚ
  max : ℚ

/-- The single accumulation loop of `compute_stats`: starting from
`sum = 0`, `minVal = INT_MAX`, `maxVal = INT_MIN`, each element is added
into the `long long` accumulator (wrapping at 64 bits) and compared
against the running min and max. -/
def statsLoop (values : List Int) : Int × Int × Int :=
  values.foldl
    (fun acc v =>
      (wrap64 (acc.1 + v),
       if v < acc.2.1 then v else acc.2.1,
       if v > acc.2.2 then v else acc.2.2))
    (0, INT_MAX, INT_MIN)

/-- Function `compute_stats` from `math_utils.cpp`. For the empty vector all three
fields are zero; otherwise `mean` is the (`double`) quotient of the
`long long` sum by the count, modelled as the exact rational quotient,
and `min`/`max` are the loop results widened to `double`. -/
def compute_stats (values : List Int) : Stats :=
  if values.isEmpty then { mean := 0, min := 0, max := 0 }
  else
    let acc := statsLoop values
    { mean := (acc.1 : ℚ) / (values.length : ℚ)
      min := (acc.2.1 : ℚ)
      max := (acc.2.2 : ℚ) }

/-- The scan loop of `is_strictly_increasing`:
`for (i = 2; i < size; ++i) if (v[i] <= v[i-1]) return false;`.
The fuel argument bounds the number of remaining iterations; it is called
with fuel `size - 2`, enough to reach the loop exit `i = size`. -/
def checkLoop (values : List Int) : Nat → Nat → Bool
  | 0, _ => true
  | fuel + 1, i =>
      if i < values.length then
        if values.getD i 0 ≤ values.getD (i - 1) 0 then false
        else checkLoop values fuel (i + 1)
      else true

/-- Function `is_strictly_increasing` from `math_utils.cpp`: vacuously true for
length ≤ 1, otherwise the scan starting at index 2. -/
def is_strictly_increasing (values : List Int) : Bool :=
  if values.length ≤ 1 then true
  else checkLoop values (values.length - 2) 2

/-! ### logger.cpp -/

/-- The anonymous-namespace helper `log_with_prefix`: one output line made
of the tag followed by the message. -/
def log_with_tag (tag msg : Str) : Str := tag ++ msg

/-- Tag used by `log_info` when `VERBOSE_LOGS` is defined. -/
def tagInformation : Str := "[INFORMATION] ".data

/-- Tag used by `log_info` in the default build. -/
def tagInfo : Str := "[INFO] ".data

/-- Tag used by `log_warning`. -/
def tagWarn : Str := "[WARN] ".data

/-- Tag used by `log_error`. -/
def tagErr : Str := "[ERR ] ".data

/-- Function `log_info` from `logger.cpp`; the build-time `VERBOSE_LOGS` toggle is
modelled as an explicit boolean parameter. -/
def log_info (verbose : Bool) (msg : Str) : Str :=
  if verbose then log_with_tag tagInformation msg else log_with_tag tagInfo msg

/-- Function `log_warning` from `logger.cpp`. -/
def log_warning (msg : Str) : Str := log_with_tag tagWarn msg

/-- Function `log_error` from `logger.cpp`. -/
def log_error (msg : Str) : Str := log_with_tag tagErr msg

/-! ### std::stoi (library semantics used by main.cpp) -/

/-- Model of `isspace` in the C locale: space, `\t`, `\n`, vertical tab,
form feed, `\r`. -/
def isSpaceByte (c : Char) : Bool :=
  c == ' ' || c == '\t' || c == '\n' || c == '\x0B' || c == '\x0C' || c == '\r'

/-- Decimal digit test on a byte. -/
def isDigitByte (c : Char) : Bool := 48 ≤ c.toNat && c.toNat ≤ 57

/-- Value of a string of decimal digits. -/
def digitsVal (ds : Str) : Nat := ds.foldl (fun acc c => 10 * acc + (c.toNat - 48)) 0

/-- Consumption of the optional sign after the whitespace skip: the flag
records whether the number is negated. -/
def splitSign (t : Str) : Bool × Str :=
  match t with
  | [] => (false, [])
  | c :: r =>
      if c = '+' then (false, r)
      else if c = '-' then (true, r)
      else (false, c :: r)

/-- Digit-run consumption and range check of `std::stoi`, after whitespace
and sign handling: consume the maximal run of decimal digits; fail when
there is none (`invalid_argument`) or when the signed value does not fit
in `int` (`out_of_range`). -/
def stoiTail (neg : Bool) (u : Str) : Option Int :=
  let ds := u.takeWhile isDigitByte
  if ds = [] then none
  else
    let v : Int := if neg then -(digitsVal ds : Int) else (digitsVal ds : Int)
    if v < INT_MIN ∨ INT_MAX < v then none else some v

/-- Model of `std::stoi` in base 10: skip leading C-locale whitespace,
consume an optional sign, consume the maximal run of decimal digits.
`none` models a thrown exception. -/
def stoi (s : Str) : Option Int :=
  let p := splitSign (s.dropWhile isSpaceByte)
  stoiTail p.1 p.2

/-! ### main.cpp -/

/-- Message body of the warning emitted for an unparseable token. -/
def invalidMsg : Str := "Ignoring invalid number: ".data

/-- Function `parse_args` from `main.cpp`, over the argument tokens after the
program name: result is the collected integers together with the warning
lines written to standard output, both in argument order. -/
def parse_args : List Str → List Int × List Str
  | [] => ([], [])
  | a :: rest =>
      let r := parse_args rest
      match stoi a with
      | some v => (v :: r.1, r.2)
      | none => (r.1, log_warning (invalidMsg ++ a) :: r.2)

/-- Usage hint logged when no valid number was supplied. -/
def usageMsg : Str := "No numbers provided. Example: ./demo 1 2 3 4".data

/-- The report printed by `main` when the parsed sequence is non-empty.
Numeric rendering of the `std::cout` insertions is abstracted with
`toString`; no verified property depends on it. -/
def reportLines (values : List Int) : List Str :=
  let s := compute_stats values
  let increasing := is_strictly_increasing values
  let sum := values.foldl (fun acc v => add acc v) 0
  [ ("Count: " ++ toString values.length).data,
    ("Mean:  " ++ toString s.mean).data,
    ("Min:   " ++ toString s.min).data,
    ("Max:   " ++ toString s.max).data,
    ("Strictly increasing: " ++ (if increasing then "YES" else "NO")).data,
    ("Sum via add(): " ++ toString sum).data,
    ("Sum * 2 via multiply(): " ++ toString (multiply sum 2)).data ]

/-- Function `main` from `main.cpp`: the process exit status together with the
lines written to standard output, in order. The warnings are emitted
during parsing, before either the usage hint or the report. -/
def mainRun (verbose : Bool) (args : List Str) : Int × List Str :=
  let p := parse_args args
  if p.1.isEmpty then (0, p.2 ++ [log_info verbose usageMsg])
  else (0, p.2 ++ reportLines p.1)

/-! ### Helper lemmas -/

/-- Round-trip of `Char.ofNat` on small (ASCII-range) code points. -/
lemma char_toNat_ofNat (n : Nat) (h : n < 200) : (Char.ofNat n).toNat = n := by
  have hv : n.isValidChar := Or.inl (by omega)
  simp [Char.ofNat, Char.toNat, dif_pos hv, Char.ofNatAux, UInt32.toNat, BitVec.ofNatLt]

/-- Per-byte composition of the case folders on ASCII letters. -/
lemma toupper_tolower_char (c : Char)
    (h : (97 ≤ c.toNat ∧ c.toNat ≤ 122) ∨ (65 ≤ c.toNat ∧ c.toNat ≤ 90)) :
    toupperChar (tolowerChar c) = toupperChar c := by
  rcases h with h | h
  · have hnu : ¬ (65 ≤ c.toNat ∧ c.toNat ≤ 90) := by omega
    rw [tolowerChar, if_neg hnu]
  · have hnl : ¬ (97 ≤ c.toNat ∧ c.toNat ≤ 122) := by omega
    rw [tolowerChar, if_pos h, toupperChar]
    have ht : (Char.ofNat (c.toNat + 32)).toNat = c.toNat + 32 :=
      char_toNat_ofNat _ (by omega)
    rw [if_pos (by rw [ht]; omega), ht, toupperChar, if_neg hnl]
    have : c.toNat + 32 - 32 = c.toNat := by omega
    rw [this, Char.ofNat_toNat]

/-- Loop characterization for `is_strictly_increasing`: with enough fuel,
the scan from index `i` succeeds exactly when every compared adjacent
pair from `i` on is strictly increasing. -/
lemma checkLoop_iff (v : List Int) :
    ∀ (fuel i : Nat), v.length ≤ i + fuel →
      (checkLoop v fuel i = true ↔
        ∀ j, i ≤ j → j < v.length → v.getD (j - 1) 0 < v.getD j 0) := by
  intro fuel
  induction fuel with
  | zero =>
    intro i hle
    simp only [checkLoop, true_iff]
    intro j h1 h2
    omega
  | succ fuel ih =>
    intro i hle
    simp only [checkLoop]
    by_cases hi : i < v.length
    · rw [if_pos hi]
      by_cases hcomp : v.getD i 0 ≤ v.getD (i - 1) 0
      · rw [if_pos hcomp]
        constructor
        · intro hfalse; cases hfalse
        · intro hall
          have := hall i le_rfl hi
          omega
      · rw [if_neg hcomp, ih (i + 1) (by omega)]
        constructor
        · intro hall j hij hj
          by_cases hji : j = i
          · subst hji; omega
          · exact hall j (by omega) hj
        · intro hall j hij hj
          exact hall j (by omega) hj
    · rw [if_neg hi]
      simp only [true_iff]
      intro j h1 h2
      omega

/-! ### Claim theorems: C1, C7, C8 -/

/-- C1: `is_strictly_increasing` returns true for length ≤ 1, and for any
sequence it returns true iff there is no index `i` with `2 ≤ i ≤ length-1`
and `v[i] ≤ v[i-1]`; the pair at indices (0,1) is never compared, so
`[5,1,2,3]` passes, `[1,2,2,3]` fails, and `[]`/`[x]` always pass. -/
theorem is_strictly_increasing_spec (v : List Int) (x : Int) :
    (v.length ≤ 1 → is_strictly_increasing v = true)
    ∧ (is_strictly_increasing v = true ↔
        ¬ ∃ i, 2 ≤ i ∧ i ≤ v.length - 1 ∧ v.getD i 0 ≤ v.getD (i - 1) 0)
    ∧ is_strictly_increasing [5, 1, 2, 3] = true
    ∧ is_strictly_increasing [1, 2, 2, 3] = false
    ∧ is_strictly_increasing ([] : List Int) = true
    ∧ is_strictly_increasing [x] = true := by
  refine ⟨?_, ?_, by decide, by decide, by decide, ?_⟩
  · intro h
    rw [is_strictly_increasing, if_pos h]
  · by_cases h : v.length ≤ 1
    · rw [is_strictly_increasing, if_pos h]
      simp only [true_iff]
      rintro ⟨i, h2, h3, -⟩
      omega
    · rw [is_strictly_increasing, if_neg h,
        checkLoop_iff v (v.length - 2) 2 (by omega)]
      constructor
      · rintro hall ⟨i, h2, h3, hle⟩
        have := hall i h2 (by omega)
        omega
      · intro hne j h2 hj
        by_contra hc
        push_neg at hc
        exact hne ⟨j, h2, by omega, hc⟩
  · rw [is_strictly_increasing, if_pos (by simp)]

/-- Witness for C1 at a concrete input of length 1. -/
theorem is_strictly_increasing_spec_witness : is_strictly_increasing [7] = true :=
  (is_strictly_increasing_spec [7] 0).1 (by decide)

/-- C7: `starts_with`/`ends_with` succeed exactly when the candidate fits
within the string and the corresponding slice matches byte-for-byte; the
empty candidate always matches, and `starts_with "ab" "abc"` is false. -/
theorem starts_ends_with_spec (s pre suf : Str) :
    (starts_with s pre = true ↔ pre.length ≤ s.length ∧ s.take pre.length = pre)
    ∧ (ends_with s suf = true ↔
        suf.length ≤ s.length ∧ s.drop (s.length - suf.length) = suf)
    ∧ starts_with s [] = true
    ∧ ends_with s [] = true
    ∧ starts_with ("ab".data) ("abc".data) = false := by
  refine ⟨?_, ?_, ?_, ?_, by decide⟩
  · by_cases hl : pre.length > s.length
    · rw [starts_with, if_pos hl]
      simp only [Bool.false_eq_true, false_iff]
      rintro ⟨h1, -⟩
      omega
    · rw [starts_with, if_neg hl, substr, List.drop_zero, beq_iff_eq]
      constructor
      · intro he
        exact ⟨by omega, he⟩
      · exact And.right
  · by_cases hl : suf.length > s.length
    · rw [ends_with, if_pos hl]
      simp only [Bool.false_eq_true, false_iff]
      rintro ⟨h1, -⟩
      omega
    · rw [ends_with, if_neg hl, substr, beq_iff_eq]
      rw [List.take_of_length_le (by rw [List.length_drop]; omega)]
      constructor
      · intro he
        exact ⟨by omega, he⟩
      · exact And.right
  · rw [starts_with]
    simp [substr]
  · rw [ends_with]
    simp [substr]

/-- C8: on pure ASCII-alphabetic strings, `to_upper` after `to_lower`
agrees with `to_upper` alone. -/
theorem to_upper_to_lower_spec (s : Str)
    (h : ∀ c ∈ s, (97 ≤ c.toNat ∧ c.toNat ≤ 122) ∨ (65 ≤ c.toNat ∧ c.toNat ≤ 90)) :
    to_upper (to_lower s) = to_upper s := by
  rw [to_upper, to_lower, to_upper, List.map_map]
  exact List.map_congr_left fun c hc => toupper_tolower_char c (h c hc)

/-- Witness for C8 on the mixed-case ASCII string "Ab". -/
theorem to_upper_to_lower_spec_witness :
    to_upper (to_lower ("Ab".data)) = to_upper ("Ab".data) :=
  to_upper_to_lower_spec ("Ab".data) (by decide)

/-! ### Helper lemmas for trim -/

/-- Characterization of the `find_first_not_of` model in terms of
`takeWhile`/`dropWhile`. -/
lemma ffno_eq (l : Str) :
    find_first_not_of l =
      if l.dropWhile isTrimWS = [] then none
      else some (l.takeWhile isTrimWS).length := by
  induction l with
  | nil => rfl
  | cons c rest ih =>
    by_cases hc : isTrimWS c = true
    · rw [find_first_not_of, if_pos hc, List.dropWhile_cons, if_pos hc,
        List.takeWhile_cons, if_pos hc, ih]
      by_cases hr : rest.dropWhile isTrimWS = []
      · rw [if_pos hr, if_pos hr]
        rfl
      · rw [if_neg hr, if_neg hr]
        rfl
    · rw [find_first_not_of, if_neg hc, List.dropWhile_cons, if_neg hc,
        List.takeWhile_cons, if_neg hc]
      rw [if_neg (by simp)]
      rfl

/-- The head of a `dropWhile` result never satisfies the predicate. -/
lemma dropWhile_head_false {α : Type} (p : α → Bool) (l : List α) (c : α)
    (h : (l.dropWhile p).head? = some c) : p c = false := by
  have hm := List.head?_dropWhile_not p l
  rw [h] at hm
  exact hm

/-- A list whose head fails the predicate is unchanged by `dropWhile`. -/
lemma dropWhile_eq_self_of_head {α : Type} (p : α → Bool) (l : List α)
    (h : ∀ c, l.head? = some c → p c = false) : l.dropWhile p = l := by
  cases l with
  | nil => rfl
  | cons c rest =>
    rw [List.dropWhile_cons, if_neg (by simp [h c rfl])]

/-- Appending on the right commutes with `takeWhile`/`dropWhile` when the
left part already contains a predicate failure. -/
lemma takeWhile_dropWhile_append {α : Type} (p : α → Bool) (u w : List α)
    (h : u.dropWhile p ≠ []) :
    (u ++ w).takeWhile p = u.takeWhile p
    ∧ (u ++ w).dropWhile p = u.dropWhile p ++ w := by
  induction u with
  | nil => exact absurd rfl h
  | cons c rest ih =>
    by_cases hc : p c = true
    · rw [List.dropWhile_cons, if_pos hc] at h
      obtain ⟨h1, h2⟩ := ih h
      constructor
      · rw [List.cons_append, List.takeWhile_cons, if_pos hc,
          List.takeWhile_cons, if_pos hc, h1]
      · rw [List.cons_append, List.dropWhile_cons, if_pos hc,
          List.dropWhile_cons, if_pos hc, h2]
    · constructor
      · rw [List.cons_append, List.takeWhile_cons, if_neg hc,
          List.takeWhile_cons, if_neg hc]
      · rw [List.cons_append, List.dropWhile_cons, if_neg hc,
          List.dropWhile_cons, if_neg hc, List.cons_append]

/-- The `trim` of the source equals the specification-level double
`dropWhile`: leading whitespace removed, then trailing whitespace removed
via reversal. -/
lemma trim_eq_spec (l : Str) :
    trim l = ((l.dropWhile isTrimWS).reverse.dropWhile isTrimWS).reverse := by
  by_cases hBn : l.dropWhile isTrimWS = []
  · rw [trim, ffno_eq, if_pos hBn, hBn]
    rfl
  · obtain ⟨A, hA⟩ : ∃ A, l.takeWhile isTrimWS = A := ⟨_, rfl⟩
    obtain ⟨B, hB⟩ : ∃ B, l.dropWhile isTrimWS = B := ⟨_, rfl⟩
    obtain ⟨C, hC⟩ : ∃ C, B.reverse.takeWhile isTrimWS = C := ⟨_, rfl⟩
    obtain ⟨D, hDd⟩ : ∃ D, B.reverse.dropWhile isTrimWS = D := ⟨_, rfl⟩
    rw [hB] at hBn
    have hlAB : l = A ++ B := by
      rw [← hA, ← hB, List.takeWhile_append_dropWhile]
    have hDn : D ≠ [] := by
      intro h0
      rw [h0] at hDd
      obtain ⟨c, r, hcr⟩ := List.exists_cons_of_ne_nil hBn
      have hcm : c ∈ B.reverse := by
        rw [List.mem_reverse, hcr]
        exact List.mem_cons_self c r
      have hcw : isTrimWS c = true := List.dropWhile_eq_nil_iff.mp hDd c hcm
      have hcf : isTrimWS c = false :=
        dropWhile_head_false isTrimWS l c (by rw [hB, hcr]; rfl)
      rw [hcw] at hcf
      cases hcf
    obtain ⟨htw, hdw⟩ := takeWhile_dropWhile_append isTrimWS B.reverse A.reverse
      (by rw [hDd]; exact hDn)
    have hlrev : l.reverse = B.reverse ++ A.reverse := by
      rw [hlAB, List.reverse_append]
    have hBsplit : B = D.reverse ++ C.reverse := by
      rw [← hC, ← hDd, ← List.reverse_append, List.takeWhile_append_dropWhile,
        List.reverse_reverse]
    have hff : find_first_not_of l = some A.length := by
      rw [ffno_eq, hB, hA, if_neg hBn]
    have hffr : find_first_not_of l.reverse = some C.length := by
      rw [ffno_eq, hlrev, hdw, htw, hC, hDd]
      rw [if_neg (by simp [hDn])]
    have hfl : find_last_not_of l = some (l.length - 1 - C.length) := by
      rw [find_last_not_of, hffr]
      rfl
    have hDpos : 0 < D.length := List.length_pos.mpr hDn
    have hlen : l.length = A.length + (C.length + D.length) := by
      rw [hlAB, List.length_append, hBsplit, List.length_append,
        List.length_reverse, List.length_reverse]
      omega
    simp only [trim, hff, hfl]
    rw [substr]
    have hdropA : l.drop A.length = B := by
      rw [hlAB, List.drop_left]
    rw [hdropA]
    have harith : l.length - 1 - C.length - A.length + 1 = D.length := by
      omega
    rw [harith, hBsplit, ← List.length_reverse D, List.take_left, hB, hDd]

/-! ### Claim theorems: C6, C10 -/

/-- C6: `trim` removes exactly the leading and trailing characters from
the set {space, tab, newline, carriage return}; an all-whitespace or
empty input yields the empty string; `trim "  a b  "` is `"a b"` and
`trim "   "` is `""`. -/
theorem trim_spec (s : Str) :
    trim s = ((s.dropWhile isTrimWS).reverse.dropWhile isTrimWS).reverse
    ∧ ((∀ c ∈ s, isTrimWS c = true) → trim s = [])
    ∧ trim ("  a b  ".data) = "a b".data
    ∧ trim ("   ".data) = [] := by
  refine ⟨trim_eq_spec s, ?_, by decide, by decide⟩
  intro hall
  rw [trim_eq_spec s, List.dropWhile_eq_nil_iff.mpr hall]
  rfl

/-- Witness for C6: an all-whitespace string trims to empty. -/
theorem trim_spec_witness : trim ("  ".data) = [] :=
  (trim_spec ("  ".data)).2.1 (by decide)

/-- C10: `trim` is idempotent. -/
theorem trim_idem (s : Str) : trim (trim s) = trim s := by
  rw [trim_eq_spec s, trim_eq_spec]
  by_cases hD : (s.dropWhile isTrimWS).reverse.dropWhile isTrimWS = []
  · rw [hD]
    rfl
  · obtain ⟨d, r, hdr⟩ := List.exists_cons_of_ne_nil hD
    have hhd : ((s.dropWhile isTrimWS).reverse.dropWhile isTrimWS).head? = some d := by
      rw [hdr]
      rfl
    have hdws : isTrimWS d = false :=
      dropWhile_head_false isTrimWS (s.dropWhile isTrimWS).reverse d hhd
    have hDrn : ((s.dropWhile isTrimWS).reverse.dropWhile isTrimWS).reverse ≠ [] := by
      simp [hdr]
    have he := List.head?_eq_head hDrn
    have hBsplit : s.dropWhile isTrimWS =
        ((s.dropWhile isTrimWS).reverse.dropWhile isTrimWS).reverse
          ++ ((s.dropWhile isTrimWS).reverse.takeWhile isTrimWS).reverse := by
      conv_lhs => rw [← List.reverse_reverse (s.dropWhile isTrimWS)]
      conv_lhs =>
        rw [← List.takeWhile_append_dropWhile isTrimWS (s.dropWhile isTrimWS).reverse]
      rw [List.reverse_append]
    have hBhead : (s.dropWhile isTrimWS).head? =
        some (((s.dropWhile isTrimWS).reverse.dropWhile isTrimWS).reverse.head hDrn) := by
      conv_lhs => rw [hBsplit]
      rw [List.head?_append, he, Option.or_some]
    have hews : isTrimWS
        (((s.dropWhile isTrimWS).reverse.dropWhile isTrimWS).reverse.head hDrn) = false :=
      dropWhile_head_false isTrimWS s _ hBhead
    have h1 : ((s.dropWhile isTrimWS).reverse.dropWhile isTrimWS).reverse.dropWhile
        isTrimWS = ((s.dropWhile isTrimWS).reverse.dropWhile isTrimWS).reverse := by
      refine dropWhile_eq_self_of_head _ _ fun c hc => ?_
      rw [he] at hc
      injection hc with hc
      rw [← hc]
      exact hews
    have h2 : ((s.dropWhile isTrimWS).reverse.dropWhile isTrimWS).dropWhile isTrimWS
        = (s.dropWhile isTrimWS).reverse.dropWhile isTrimWS := by
      refine dropWhile_eq_self_of_head _ _ fun c hc => ?_
      rw [hhd] at hc
      injection hc with hc
      rw [← hc]
      exact hdws
    rw [h1, List.reverse_reverse, h2]

/-! ### Helper lemmas for compute_stats -/

/-- The triple accumulator loop splits into three independent folds. -/
lemma foldl_triple_split (v : List Int) :
    ∀ a b c : Int,
      v.foldl (fun acc x =>
        (wrap64 (acc.1 + x),
         if x < acc.2.1 then x else acc.2.1,
         if x > acc.2.2 then x else acc.2.2)) (a, b, c)
      = (v.foldl (fun m x => wrap64 (m + x)) a,
         v.foldl (fun m x => if x < m then x else m) b,
         v.foldl (fun m x => if x > m then x else m) c) := by
  induction v with
  | nil => intro a b c; rfl
  | cons y ys ih =>
    intro a b c
    rw [List.foldl_cons, List.foldl_cons, List.foldl_cons, List.foldl_cons]
    exact ih _ _ _

/-- Lemma giving `statsLoop` in terms of the three independent folds. -/
lemma statsLoop_eq (v : List Int) :
    statsLoop v
      = (v.foldl (fun m x => wrap64 (m + x)) 0,
         v.foldl (fun m x => if x < m then x else m) INT_MAX,
         v.foldl (fun m x => if x > m then x else m) INT_MIN) :=
  foldl_triple_split v 0 INT_MAX INT_MIN

/-- Lemma: `wrap64` is the identity inside the representable range. -/
lemma wrap64_id (z : Int) (h1 : -(2 ^ 63) ≤ z) (h2 : z ≤ 2 ^ 63 - 1) :
    wrap64 z = z := by
  rw [wrap64, Int.emod_eq_of_lt (by omega) (by omega)]
  omega

/-- No intermediate overflow in the `long long` sum: as long as the
slack invariant holds for the accumulator, the wrapping fold computes
the exact sum. -/
lemma sumFold_exact (v : List Int) :
    ∀ a : Int, (∀ x ∈ v, INT_MIN ≤ x ∧ x ≤ INT_MAX) →
      -(2 ^ 63) + (v.length : Int) * 2 ^ 31 ≤ a →
      a ≤ 2 ^ 63 - (v.length : Int) * 2 ^ 31 →
      v.foldl (fun m x => wrap64 (m + x)) a = a + v.sum := by
  induction v with
  | nil => intro a _ _ _; simp
  | cons y ys ih =>
    intro a hb h1 h2
    have hy := hb y (List.mem_cons_self _ _)
    have hlen : ((y :: ys).length : Int) = (ys.length : Int) + 1 := by
      push_cast [List.length_cons]
      ring
    rw [hlen] at h1 h2
    have h31 : (2 : Int) ^ 31 = 2147483648 := by norm_num
    have h63 : (2 : Int) ^ 63 = 9223372036854775808 := by norm_num
    rw [h31, h63] at h1 h2
    rw [INT_MIN, INT_MAX, h31] at hy
    have hnn : (0 : Int) ≤ (ys.length : Int) := Int.natCast_nonneg _
    have hw : wrap64 (a + y) = a + y := by
      refine wrap64_id _ ?_ ?_ <;> · rw [h63]; nlinarith
    rw [List.foldl_cons, hw, List.sum_cons]
    have := ih (a + y) (fun x hx => hb x (List.mem_cons_of_mem _ hx))
      (by rw [h31, h63]; nlinarith) (by rw [h31, h63]; nlinarith)
    rw [this]
    ring

/-- The min-fold is bounded by its initial value. -/
lemma foldlMin_le_init (v : List Int) :
    ∀ a : Int, v.foldl (fun m x => if x < m then x else m) a ≤ a := by
  induction v with
  | nil => intro a; simp
  | cons y ys ih =>
    intro a
    rw [List.foldl_cons]
    refine le_trans (ih _) ?_
    split <;> omega

/-- The min-fold is a lower bound for every traversed element. -/
lemma foldlMin_le_mem (v : List Int) :
    ∀ a x : Int, x ∈ v → v.foldl (fun m x => if x < m then x else m) a ≤ x := by
  induction v with
  | nil => intro a x hx; cases hx
  | cons y ys ih =>
    intro a x hx
    rw [List.foldl_cons]
    rcases List.mem_cons.mp hx with rfl | hx2
    · refine le_trans (foldlMin_le_init ys _) ?_
      split <;> omega
    · exact ih _ x hx2

/-- The min-fold returns either a traversed element or its initial value. -/
lemma foldlMin_mem_or (v : List Int) :
    ∀ a : Int, v.foldl (fun m x => if x < m then x else m) a ∈ v ∨
      v.foldl (fun m x => if x < m then x else m) a = a := by
  induction v with
  | nil => intro a; right; rfl
  | cons y ys ih =>
    intro a
    rw [List.foldl_cons]
    rcases ih (if y < a then y else a) with h | h
    · left; exact List.mem_cons_of_mem _ h
    · rw [h]
      split
      · left; exact List.mem_cons_self _ _
      · right; rfl

/-- The max-fold is bounded below by its initial value. -/
lemma foldlMax_ge_init (v : List Int) :
    ∀ a : Int, a ≤ v.foldl (fun m x => if x > m then x else m) a := by
  induction v with
  | nil => intro a; simp
  | cons y ys ih =>
    intro a
    rw [List.foldl_cons]
    refine le_trans ?_ (ih _)
    split <;> omega

/-- The max-fold is an upper bound for every traversed element. -/
lemma foldlMax_ge_mem (v : List Int) :
    ∀ a x : Int, x ∈ v → x ≤ v.foldl (fun m x => if x > m then x else m) a := by
  induction v with
  | nil => intro a x hx; cases hx
  | cons y ys ih =>
    intro a x hx
    rw [List.foldl_cons]
    rcases List.mem_cons.mp hx with rfl | hx2
    · refine le_trans ?_ (foldlMax_ge_init ys _)
      split <;> omega
    · exact ih _ x hx2

/-- The max-fold returns either a traversed element or its initial value. -/
lemma foldlMax_mem_or (v : List Int) :
    ∀ a : Int, v.foldl (fun m x => if x > m then x else m) a ∈ v ∨
      v.foldl (fun m x => if x > m then x else m) a = a := by
  induction v with
  | nil => intro a; right; rfl
  | cons y ys ih =>
    intro a
    rw [List.foldl_cons]
    rcases ih (if y > a then y else a) with h | h
    · left; exact List.mem_cons_of_mem _ h
    · rw [h]
      split
      · left; exact List.mem_cons_self _ _
      · right; rfl

/-- A uniform lower bound on the elements bounds the sum from below. -/
lemma mul_length_le_sum (v : List Int) (m : Int) (h : ∀ x ∈ v, m ≤ x) :
    m * (v.length : Int) ≤ v.sum := by
  induction v with
  | nil => simp
  | cons y ys ih =>
    have h1 := h y (List.mem_cons_self _ _)
    have h2 := ih fun x hx => h x (List.mem_cons_of_mem _ hx)
    rw [List.sum_cons, List.length_cons]
    have he : m * ((ys.length + 1 : Nat) : Int) = m * (ys.length : Int) + m := by
      push_cast
      ring
    rw [he]
    omega

/-- A uniform upper bound on the elements bounds the sum from above. -/
lemma sum_le_mul_length (v : List Int) (M : Int) (h : ∀ x ∈ v, x ≤ M) :
    v.sum ≤ M * (v.length : Int) := by
  induction v with
  | nil => simp
  | cons y ys ih =>
    have h1 := h y (List.mem_cons_self _ _)
    have h2 := ih fun x hx => h x (List.mem_cons_of_mem _ hx)
    rw [List.sum_cons, List.length_cons]
    have he : M * ((ys.length + 1 : Nat) : Int) = M * (ys.length : Int) + M := by
      push_cast
      ring
    rw [he]
    omega

/-- Field-level description of `compute_stats` on a non-empty input. -/
lemma compute_stats_fields (v : List Int) (hne : v ≠ []) :
    (compute_stats v).mean
        = ((v.foldl (fun m x => wrap64 (m + x)) 0 : Int) : ℚ) / (v.length : ℚ)
    ∧ (compute_stats v).min
        = ((v.foldl (fun m x => if x < m then x else m) INT_MAX : Int) : ℚ)
    ∧ (compute_stats v).max
        = ((v.foldl (fun m x => if x > m then x else m) INT_MIN : Int) : ℚ) := by
  obtain ⟨y, ys, rfl⟩ := List.exists_cons_of_ne_nil hne
  rw [compute_stats]
  rw [if_neg (by simp)]
  rw [statsLoop_eq]
  exact ⟨rfl, rfl, rfl⟩

/-- The wrapping sum equals the exact sum under the `int` range invariant
and a (generous) bound on the vector length. -/
lemma sumLL_exact (v : List Int) (hb : ∀ x ∈ v, INT_MIN ≤ x ∧ x ≤ INT_MAX)
    (hlen : v.length ≤ 2 ^ 32) :
    v.foldl (fun m x => wrap64 (m + x)) 0 = v.sum := by
  have hlen2 : (v.length : Int) ≤ 2 ^ 32 := by exact_mod_cast hlen
  have hnn : (0 : Int) ≤ (v.length : Int) := Int.natCast_nonneg _
  have hprod : (v.length : Int) * 2 ^ 31 ≤ 2 ^ 63 := by nlinarith
  have := sumFold_exact v 0 hb (by omega) (by omega)
  rw [this]
  ring

/-! ### Claim theorems: C2, C3 -/

/-- C2: `compute_stats []` is all-zero; on a non-empty vector of `int`
values (with the `long long` accumulator never overflowing under the
stated length bound), `mean` is the exact sum divided by the count
(the quotient of the `double` division modelled as the exact rational),
`min` is the smallest element and `max` is the largest element. -/
theorem compute_stats_spec :
    compute_stats [] = { mean := 0, min := 0, max := 0 }
    ∧ ∀ v : List Int, v ≠ [] → (∀ x ∈ v, INT_MIN ≤ x ∧ x ≤ INT_MAX) →
        v.length ≤ 2 ^ 32 →
        (compute_stats v).mean = (v.sum : ℚ) / (v.length : ℚ)
        ∧ (∃ m ∈ v, (compute_stats v).min = (m : ℚ) ∧ ∀ x ∈ v, m ≤ x)
        ∧ (∃ M ∈ v, (compute_stats v).max = (M : ℚ) ∧ ∀ x ∈ v, x ≤ M) := by
  refine ⟨rfl, fun v hne hb hlen => ?_⟩
  obtain ⟨hmean, hmin, hmax⟩ := compute_stats_fields v hne
  refine ⟨by rw [hmean, sumLL_exact v hb hlen], ?_, ?_⟩
  · rcases foldlMin_mem_or v INT_MAX with hm | hm
    · exact ⟨_, hm, hmin, fun x hx => foldlMin_le_mem v INT_MAX x hx⟩
    · obtain ⟨y, ys, rfl⟩ := List.exists_cons_of_ne_nil hne
      have hyle := foldlMin_le_mem (y :: ys) INT_MAX y (List.mem_cons_self _ _)
      have hylt := (hb y (List.mem_cons_self _ _)).2
      have hy : y = (y :: ys).foldl (fun m x => if x < m then x else m) INT_MAX := by
        omega
      exact ⟨y, List.mem_cons_self _ _, by rw [hmin, ← hy],
        fun x hx => le_trans (hy ▸ foldlMin_le_mem (y :: ys) INT_MAX x hx) le_rfl⟩
  · rcases foldlMax_mem_or v INT_MIN with hm | hm
    · exact ⟨_, hm, hmax, fun x hx => foldlMax_ge_mem v INT_MIN x hx⟩
    · obtain ⟨y, ys, rfl⟩ := List.exists_cons_of_ne_nil hne
      have hyge := foldlMax_ge_mem (y :: ys) INT_MIN y (List.mem_cons_self _ _)
      have hygt := (hb y (List.mem_cons_self _ _)).1
      have hy : y = (y :: ys).foldl (fun m x => if x > m then x else m) INT_MIN := by
        omega
      exact ⟨y, List.mem_cons_self _ _, by rw [hmax, ← hy],
        fun x hx => le_trans le_rfl (hy ▸ foldlMax_ge_mem (y :: ys) INT_MIN x hx)⟩

/-- Witness for C2 at the concrete vector `[3, 1, 2]`. -/
theorem compute_stats_spec_witness :
    (compute_stats [3, 1, 2]).mean
        = (([3, 1, 2] : List Int).sum : ℚ) / (([3, 1, 2] : List Int).length : ℚ)
    ∧ (∃ m ∈ ([3, 1, 2] : List Int), (compute_stats [3, 1, 2]).min = (m : ℚ)
        ∧ ∀ x ∈ ([3, 1, 2] : List Int), m ≤ x)
    ∧ (∃ M ∈ ([3, 1, 2] : List Int), (compute_stats [3, 1, 2]).max = (M : ℚ)
        ∧ ∀ x ∈ ([3, 1, 2] : List Int), x ≤ M) :=
  compute_stats_spec.2 [3, 1, 2] (by decide) (by decide) (by norm_num)

/-- C3: on a non-empty `int` vector, `min ≤ mean ≤ max`, where the
floating-point rounding of the quotient is abstracted as an arbitrary
monotone map fixing the integers (IEEE round-to-nearest on the values in
play is such a map; `fl = id` recovers the exact-arithmetic statement). -/
theorem compute_stats_order (v : List Int) (fl : ℚ → ℚ) (hne : v ≠ [])
    (hb : ∀ x ∈ v, INT_MIN ≤ x ∧ x ≤ INT_MAX) (hlen : v.length ≤ 2 ^ 32)
    (hmono : Monotone fl) (hfix : ∀ z : Int, fl (z : ℚ) = (z : ℚ)) :
    (compute_stats v).min ≤ fl ((compute_stats v).mean)
    ∧ fl ((compute_stats v).mean) ≤ (compute_stats v).max := by
  obtain ⟨hmean, hmin, hmax⟩ := compute_stats_fields v hne
  rw [hmean, sumLL_exact v hb hlen, hmin, hmax]
  have hnpos : (0 : ℚ) < (v.length : ℚ) := by
    have := List.length_pos.mpr hne
    exact_mod_cast this
  have hminmean :
      ((v.foldl (fun m x => if x < m then x else m) INT_MAX : Int) : ℚ)
        ≤ (v.sum : ℚ) / (v.length : ℚ) := by
    rw [le_div_iff₀ hnpos]
    have := mul_length_le_sum v _ (fun x hx => foldlMin_le_mem v INT_MAX x hx)
    exact_mod_cast this
  have hmeanmax : (v.sum : ℚ) / (v.length : ℚ)
      ≤ ((v.foldl (fun m x => if x > m then x else m) INT_MIN : Int) : ℚ) := by
    rw [div_le_iff₀ hnpos]
    have := sum_le_mul_length v _ (fun x hx => foldlMax_ge_mem v INT_MIN x hx)
    exact_mod_cast this
  constructor
  · calc ((v.foldl (fun m x => if x < m then x else m) INT_MAX : Int) : ℚ)
        = fl ((v.foldl (fun m x => if x < m then x else m) INT_MAX : Int) : ℚ) :=
          (hfix _).symm
      _ ≤ fl ((v.sum : ℚ) / (v.length : ℚ)) := hmono hminmean
  · calc fl ((v.sum : ℚ) / (v.length : ℚ))
        ≤ fl ((v.foldl (fun m x => if x > m then x else m) INT_MIN : Int) : ℚ) :=
          hmono hmeanmax
      _ = ((v.foldl (fun m x => if x > m then x else m) INT_MIN : Int) : ℚ) :=
          hfix _

/-- Witness for C3 at the vector `[1, 2]` with the identity rounding. -/
theorem compute_stats_order_witness :
    (compute_stats [1, 2]).min ≤ id ((compute_stats [1, 2]).mean)
    ∧ id ((compute_stats [1, 2]).mean) ≤ (compute_stats [1, 2]).max :=
  compute_stats_order [1, 2] id (by decide) (by decide) (by norm_num)
    monotone_id (fun z => rfl)

/-! ### Helper lemmas for the driver -/

/-- Closed form of `parse_args`: the parsed values are the tokens on which
`stoi` succeeds, in order; the warning lines correspond to the tokens on
which `stoi` throws, in order. -/
lemma parse_args_eq (args : List Str) :
    parse_args args
      = (args.filterMap stoi,
         (args.filter fun a => (stoi a).isNone).map
           fun a => log_warning (invalidMsg ++ a)) := by
  induction args with
  | nil => rfl
  | cons a rest ih =>
    cases h : stoi a with
    | none =>
      simp only [parse_args, h, ih, List.filterMap_cons, List.filter_cons,
        Option.isNone_none, if_pos, List.map_cons]
    | some v =>
      simp only [parse_args, h, ih, List.filterMap_cons, List.filter_cons,
        Option.isNone_some, Bool.false_eq_true, if_false, List.map_cons]

/-! ### Claim theorems: C4, C5 -/

/-- C4: every token that fails integer parsing is skipped (no placeholder)
and produces exactly one warning line of the form
`[WARN] Ignoring invalid number: <token>` on standard output, in argument
order; successfully parsed tokens are collected in order. -/
theorem parse_args_spec (args : List Str) :
    (parse_args args).1 = args.filterMap stoi
    ∧ (parse_args args).2
        = (args.filter fun a => (stoi a).isNone).map
            fun a => "[WARN] Ignoring invalid number: ".data ++ a := by
  rw [parse_args_eq]
  refine ⟨rfl, ?_⟩
  refine List.map_congr_left fun a _ => ?_
  rw [log_warning, log_with_tag, invalidMsg, tagWarn, ← List.append_assoc]
  rfl

/-- C5: `mainRun` always exits with status 0, and when the parsed sequence
is empty it emits exactly one informational usage-hint line after any
warnings. -/
theorem mainRun_exit_spec (verbose : Bool) (args : List Str) :
    (mainRun verbose args).1 = 0
    ∧ ((parse_args args).1 = [] →
        (mainRun verbose args).2 = (parse_args args).2
          ++ [log_info verbose usageMsg]) := by
  constructor
  · rw [mainRun]
    split
    · rfl
    · rfl
  · intro h
    rw [mainRun]
    rw [if_pos (by rw [h]; rfl)]

/-- Witness for C5: with the single invalid token "x", the output is the
warning followed by the usage hint. -/
theorem mainRun_exit_spec_witness :
    (mainRun false [['x']]).2 = (parse_args [['x']]).2
      ++ [log_info false usageMsg] :=
  (mainRun_exit_spec false [['x']]).2 (by decide)

/-! ### Helper lemmas for the stoi characterization -/

/-- A decimal digit byte is not whitespace and not a sign character. -/
lemma digit_facts (c : Char) (h : isDigitByte c = true) :
    isSpaceByte c = false ∧ c ≠ '+' ∧ c ≠ '-' := by
  refine ⟨?_, fun hc => by subst hc; exact absurd h (by decide),
    fun hc => by subst hc; exact absurd h (by decide)⟩
  cases hsp : isSpaceByte c with
  | false => rfl
  | true =>
    exfalso
    rw [isSpaceByte] at hsp
    simp only [Bool.or_eq_true, beq_iff_eq] at hsp
    rcases hsp with ((((rfl | rfl) | rfl) | rfl) | rfl) | rfl <;>
      exact absurd h (by decide)

/-- Lemma: `dropWhile` jumps over a block that satisfies the predicate. -/
lemma dropWhile_append_all {α : Type} (p : α → Bool) (u w : List α)
    (h : ∀ c ∈ u, p c = true) : (u ++ w).dropWhile p = w.dropWhile p := by
  induction u with
  | nil => rfl
  | cons c r ih =>
    rw [List.cons_append, List.dropWhile_cons, if_pos (h c (List.mem_cons_self _ _))]
    exact ih fun x hx => h x (List.mem_cons_of_mem _ hx)

/-- Lemmas for `takeWhile`/`dropWhile` on an exact decomposition: a block satisfying
the predicate followed by a tail whose head fails it. -/
lemma takeWhile_append_exact {α : Type} (p : α → Bool) (ds w : List α)
    (hds : ∀ c ∈ ds, p c = true) (hw : ∀ c, w.head? = some c → p c = false) :
    (ds ++ w).takeWhile p = ds ∧ (ds ++ w).dropWhile p = w := by
  induction ds with
  | nil =>
    refine ⟨?_, by rw [List.nil_append]; exact dropWhile_eq_self_of_head p w hw⟩
    cases w with
    | nil => rfl
    | cons c r =>
      rw [List.nil_append, List.takeWhile_cons, if_neg (by simp [hw c rfl])]
  | cons d ds2 ih =>
    have hd := hds d (List.mem_cons_self _ _)
    obtain ⟨h1, h2⟩ := ih fun c hc => hds c (List.mem_cons_of_mem _ hc)
    constructor
    · rw [List.cons_append, List.takeWhile_cons, if_pos hd, h1]
    · rw [List.cons_append, List.dropWhile_cons, if_pos hd, h2]

/-- Reduction of `splitSign` on a leading plus. -/
lemma splitSign_plus (r : Str) : splitSign ('+' :: r) = (false, r) := by
  simp [splitSign]

/-- Reduction of `splitSign` on a leading minus. -/
lemma splitSign_minus (r : Str) : splitSign ('-' :: r) = (true, r) := by
  simp [splitSign]

/-- Reduction of `splitSign` on any other head. -/
lemma splitSign_other (c : Char) (r : Str) (h1 : c ≠ '+') (h2 : c ≠ '-') :
    splitSign (c :: r) = (false, c :: r) := by
  simp [splitSign, h1, h2]

/-- Success condition for the digit-run phase of `stoi`. -/
lemma stoiTail_some_iff (neg : Bool) (u : Str) (v : Int) :
    stoiTail neg u = some v ↔
      u.takeWhile isDigitByte ≠ []
      ∧ v = (if neg then -(digitsVal (u.takeWhile isDigitByte) : Int)
             else (digitsVal (u.takeWhile isDigitByte) : Int))
      ∧ INT_MIN ≤ v ∧ v ≤ INT_MAX := by
  simp only [stoiTail]
  by_cases h1 : u.takeWhile isDigitByte = []
  · rw [if_pos h1]
    simp [h1]
  · rw [if_neg h1]
    by_cases h2 : (if neg then -(digitsVal (u.takeWhile isDigitByte) : Int)
          else (digitsVal (u.takeWhile isDigitByte) : Int)) < INT_MIN
        ∨ INT_MAX < (if neg then -(digitsVal (u.takeWhile isDigitByte) : Int)
          else (digitsVal (u.takeWhile isDigitByte) : Int))
    · rw [if_pos h2]
      constructor
      · intro h; cases h
      · rintro ⟨-, hveq, hlo, hhi⟩
        rw [← hveq] at h2
        rcases h2 with h2 | h2 <;> omega
    · rw [if_neg h2]
      push_neg at h2
      constructor
      · intro h
        injection h with hv
        obtain ⟨h2a, h2b⟩ := h2
        exact ⟨h1, hv.symm, by omega, by omega⟩
      · rintro ⟨-, hveq, -, -⟩
        rw [hveq]

/-- Backward direction of the stoi characterization: any well-formed
decomposition is parsed to its value. -/
lemma stoi_of_decomposition (ws sgn ds rest : Str) (v : Int)
    (hws : ∀ c ∈ ws, isSpaceByte c = true)
    (hsgn : sgn = [] ∨ sgn = ['+'] ∨ sgn = ['-'])
    (hdsne : ds ≠ [])
    (hdsdig : ∀ c ∈ ds, isDigitByte c = true)
    (hrest : ∀ c, rest.head? = some c → isDigitByte c = false)
    (hv : v = if sgn = ['-'] then -(digitsVal ds : Int) else (digitsVal ds : Int))
    (hlo : INT_MIN ≤ v) (hhi : v ≤ INT_MAX) :
    stoi (ws ++ sgn ++ ds ++ rest) = some v := by
  obtain ⟨d, ds2, rfl⟩ := List.exists_cons_of_ne_nil hdsne
  have hd := hdsdig d (List.mem_cons_self _ _)
  obtain ⟨hdsp, hdp, hdm⟩ := digit_facts d hd
  have htds : ((d :: ds2) ++ rest).takeWhile isDigitByte = d :: ds2 :=
    (takeWhile_append_exact isDigitByte (d :: ds2) rest hdsdig hrest).1
  have hddrop : ((d :: ds2) ++ rest).dropWhile isSpaceByte
      = (d :: ds2) ++ rest := by
    refine dropWhile_eq_self_of_head _ _ fun c hc => ?_
    rw [List.cons_append, List.head?_cons] at hc
    injection hc with hc
    rw [← hc]
    exact hdsp
  rcases hsgn with rfl | rfl | rfl
  · have hdrop : (ws ++ [] ++ (d :: ds2) ++ rest).dropWhile isSpaceByte
        = (d :: ds2) ++ rest := by
      rw [List.append_nil, List.append_assoc, dropWhile_append_all _ _ _ hws,
        hddrop]
    simp only [stoi, hdrop]
    rw [show ((d :: ds2 : Str) ++ rest) = d :: (ds2 ++ rest) from rfl,
      splitSign_other d _ hdp hdm]
    show stoiTail false (d :: (ds2 ++ rest)) = some v
    rw [stoiTail_some_iff]
    have htds2 : List.takeWhile isDigitByte (d :: (ds2 ++ rest)) = d :: ds2 := htds
    rw [htds2]
    refine ⟨by simp, ?_, hlo, hhi⟩
    rw [hv, if_neg (by simp)]
    rfl
  · have hdrop : (ws ++ ['+'] ++ (d :: ds2) ++ rest).dropWhile isSpaceByte
        = '+' :: ((d :: ds2) ++ rest) := by
      rw [List.append_assoc, List.append_assoc, dropWhile_append_all _ _ _ hws]
      rw [show (['+'] ++ ((d :: ds2) ++ rest) : Str)
          = '+' :: ((d :: ds2) ++ rest) from rfl]
      rw [List.dropWhile_cons, if_neg (by decide)]
    simp only [stoi, hdrop]
    rw [splitSign_plus]
    show stoiTail false ((d :: ds2) ++ rest) = some v
    rw [stoiTail_some_iff, htds]
    refine ⟨by simp, ?_, hlo, hhi⟩
    rw [hv, if_neg (by simp)]
    rfl
  · have hdrop : (ws ++ ['-'] ++ (d :: ds2) ++ rest).dropWhile isSpaceByte
        = '-' :: ((d :: ds2) ++ rest) := by
      rw [List.append_assoc, List.append_assoc, dropWhile_append_all _ _ _ hws]
      rw [show (['-'] ++ ((d :: ds2) ++ rest) : Str)
          = '-' :: ((d :: ds2) ++ rest) from rfl]
      rw [List.dropWhile_cons, if_neg (by decide)]
    simp only [stoi, hdrop]
    rw [splitSign_minus]
    show stoiTail true ((d :: ds2) ++ rest) = some v
    rw [stoiTail_some_iff, htds]
    refine ⟨by simp, ?_, hlo, hhi⟩
    rw [hv, if_pos rfl]
    rfl

/-- Forward direction of the stoi characterization: a successful parse
yields a well-formed decomposition of the token. -/
lemma stoi_to_decomposition (s : Str) (v : Int) (h : stoi s = some v) :
    ∃ ws sgn ds rest, s = ws ++ sgn ++ ds ++ rest
      ∧ (∀ c ∈ ws, isSpaceByte c = true)
      ∧ (sgn = [] ∨ sgn = ['+'] ∨ sgn = ['-'])
      ∧ ds ≠ []
      ∧ (∀ c ∈ ds, isDigitByte c = true)
      ∧ (∀ c, rest.head? = some c → isDigitByte c = false)
      ∧ v = (if sgn = ['-'] then -(digitsVal ds : Int) else (digitsVal ds : Int))
      ∧ INT_MIN ≤ v ∧ v ≤ INT_MAX := by
  have hsplit : s = s.takeWhile isSpaceByte ++ s.dropWhile isSpaceByte :=
    (List.takeWhile_append_dropWhile _ _).symm
  have hws : ∀ c ∈ s.takeWhile isSpaceByte, isSpaceByte c = true :=
    fun c hc => List.mem_takeWhile_imp hc
  simp only [stoi] at h
  cases ht : s.dropWhile isSpaceByte with
  | nil =>
    rw [ht] at h
    rw [show splitSign [] = (false, []) from rfl] at h
    replace h : stoiTail false [] = some v := h
    rw [stoiTail_some_iff] at h
    exact absurd rfl h.1
  | cons c r =>
    rw [ht] at h
    by_cases hcp : c = '+'
    · subst hcp
      rw [splitSign_plus] at h
      replace h : stoiTail false r = some v := h
      rw [stoiTail_some_iff] at h
      obtain ⟨hne, hveq, hlo, hhi⟩ := h
      refine ⟨s.takeWhile isSpaceByte, ['+'], r.takeWhile isDigitByte,
        r.dropWhile isDigitByte, ?_, hws, Or.inr (Or.inl rfl), hne,
        fun c hc => List.mem_takeWhile_imp hc,
        fun c hc => dropWhile_head_false _ _ _ hc, ?_, hlo, hhi⟩
      · conv_lhs => rw [hsplit, ht]
        rw [List.append_assoc, List.append_assoc, List.takeWhile_append_dropWhile]
        rfl
      · rw [hveq, if_neg (by decide), if_neg (by simp)]
    · by_cases hcm : c = '-'
      · subst hcm
        rw [splitSign_minus] at h
        replace h : stoiTail true r = some v := h
        rw [stoiTail_some_iff] at h
        obtain ⟨hne, hveq, hlo, hhi⟩ := h
        refine ⟨s.takeWhile isSpaceByte, ['-'], r.takeWhile isDigitByte,
          r.dropWhile isDigitByte, ?_, hws, Or.inr (Or.inr rfl), hne,
          fun c hc => List.mem_takeWhile_imp hc,
          fun c hc => dropWhile_head_false _ _ _ hc, ?_, hlo, hhi⟩
        · conv_lhs => rw [hsplit, ht]
          rw [List.append_assoc, List.append_assoc, List.takeWhile_append_dropWhile]
          rfl
        · rw [hveq, if_pos rfl, if_pos rfl]
      · rw [splitSign_other c r hcp hcm] at h
        replace h : stoiTail false (c :: r) = some v := h
        rw [stoiTail_some_iff] at h
        obtain ⟨hne, hveq, hlo, hhi⟩ := h
        refine ⟨s.takeWhile isSpaceByte, [], (c :: r).takeWhile isDigitByte,
          (c :: r).dropWhile isDigitByte, ?_, hws, Or.inl rfl, hne,
          fun x hx => List.mem_takeWhile_imp hx,
          fun x hx => dropWhile_head_false _ _ _ hx, ?_, hlo, hhi⟩
        · conv_lhs => rw [hsplit, ht]
          rw [List.append_nil, List.append_assoc, List.takeWhile_append_dropWhile]
        · rw [hveq, if_neg (by decide), if_neg (by simp)]

/-! ### Claim theorem: C9 -/

/-- C9: a token is accepted by the driver exactly when `std::stoi` does
not throw on it: optional leading whitespace, an optional sign, a
non-empty maximal digit run whose signed value fits in `int`, and
arbitrary non-digit-led trailing characters; in particular `"12abc"` and
`"  7x"` parse (to the prefix value), while `"abc"` and the out-of-range
`"2147483648"` are skipped with a warning. -/
theorem stoi_accept_spec :
    (∀ (s : Str) (v : Int),
      stoi s = some v ↔
        ∃ ws sgn ds rest, s = ws ++ sgn ++ ds ++ rest
          ∧ (∀ c ∈ ws, isSpaceByte c = true)
          ∧ (sgn = [] ∨ sgn = ['+'] ∨ sgn = ['-'])
          ∧ ds ≠ []
          ∧ (∀ c ∈ ds, isDigitByte c = true)
          ∧ (∀ c, rest.head? = some c → isDigitByte c = false)
          ∧ v = (if sgn = ['-'] then -(digitsVal ds : Int) else (digitsVal ds : Int))
          ∧ INT_MIN ≤ v ∧ v ≤ INT_MAX)
    ∧ stoi ("12abc".data) = some 12
    ∧ stoi ("  7x".data) = some 7
    ∧ stoi ("abc".data) = none
    ∧ stoi ("2147483648".data) = none
    ∧ (∀ args : List Str,
        (parse_args args).1 = args.filterMap stoi
        ∧ (parse_args args).2
            = (args.filter fun a => (stoi a).isNone).map
                fun a => log_warning (invalidMsg ++ a)) := by
  refine ⟨?_, by decide, by decide, by decide, by decide, ?_⟩
  · intro s v
    constructor
    · exact stoi_to_decomposition s v
    · rintro ⟨ws, sgn, ds, rest, rfl, hws, hsgn, hdsne, hdsdig, hrest, hv, hlo, hhi⟩
      exact stoi_of_decomposition ws sgn ds rest v hws hsgn hdsne hdsdig hrest hv hlo hhi
  · intro args
    rw [parse_args_eq]
    exact ⟨rfl, rfl⟩

end BinDiff
